import Mathlib

/-!
Verification of the resilient generation and batch orchestration engine:
a shallow embedding of `backend/generate_api.py`, `backend/storage.py` and
`backend/app.py` of the qna_generator repository, together with theorems
about response validation, fan-out aggregation, table storage and batch
orchestration.

Conventions of the embedding:
* Python dicts are association lists looked up by first match; every dict
  built by the program has pairwise distinct keys, which theorems assume
  explicitly where it matters.
* Python values flowing through the parsing/validation pipeline are
  strings and lists of strings (`PyVal`), exactly the shapes this program
  manipulates after `json.loads` of a model response.
* Fallible Python code (functions that may raise) is embedded as
  `Except String` / `Option` returning functions.
-/

/-- Python values as they occur in parsed model responses and in table
cells: strings and lists of strings. -/
inductive PyVal where
  | vstr (s : String)
  | vlist (xs : List String)
deriving DecidableEq, Repr

/-- Python dict read `j[k]` (first matching key of the association list). -/
def lookupKey (j : List (String × PyVal)) (k : String) : Option PyVal :=
  match j with
  | [] => none
  | (k0, v) :: rest => if k0 = k then some v else lookupKey rest k

/-- Python dict write `j[k] = v`: update the first entry with key `k`,
or append a fresh entry when `k` is absent. -/
def setKey (j : List (String × PyVal)) (k : String) (v : PyVal) :
    List (String × PyVal) :=
  match j with
  | [] => [(k, v)]
  | (k0, v0) :: rest =>
      if k0 = k then (k0, v) :: rest else (k0, v0) :: setKey rest k v

/-- Whether an optional dict value is present and is a list. -/
def isListVal : Option PyVal → Bool
  | some (PyVal.vlist _) => true
  | _ => false

/-- Whether an `Except` result is a success. -/
def exOk : Except String (List (String × PyVal)) → Bool
  | Except.ok _ => true
  | Except.error _ => false

/-- Arity correction performed by `_validate_output` on one key's list:
truncate above `n`, right-pad with empty strings below `n`. -/
def fixArity (xs : List String) (n : Nat) : List String :=
  if xs.length > n then xs.take n
  else xs ++ List.replicate (n - xs.length) ""

/-- The six required keys of `_validate_output`, in source order. -/
def requiredKeys : List String :=
  ["q_en", "a_en", "q_hi", "a_hi", "q_sa", "a_sa"]

/-- Processing of one required key inside `_validate_output`: a missing
key raises, a present non-list value raises, a present list is replaced by
its arity-corrected form. -/
def validateStep (n : Nat) (j : List (String × PyVal)) (k : String) :
    Except String (List (String × PyVal)) :=
  match lookupKey j k with
  | none => Except.error ("Missing key " ++ k ++ " in model output")
  | some (PyVal.vstr _) => Except.error ("Key " ++ k ++ " must be a list")
  | some (PyVal.vlist xs) =>
      Except.ok (setKey j k (PyVal.vlist (fixArity xs n)))

/-- Loop of `_validate_output` over a list of keys, stopping at the first
failure (the first raised `ValueError`). -/
def validateKeys (n : Nat) (ks : List String) (j : List (String × PyVal)) :
    Except String (List (String × PyVal)) :=
  match ks with
  | [] => Except.ok j
  | k :: rest =>
      match validateStep n j k with
      | Except.error e => Except.error e
      | Except.ok j' => validateKeys n rest j'

/-- Embedding of `_validate_output(j, n)` of `generate_api.py`: run the
per-key check over the six required keys in source order. -/
def validate_output (j : List (String × PyVal)) (n : Nat) :
    Except String (List (String × PyVal)) :=
  validateKeys n requiredKeys j

theorem lookup_setKey_self (j : List (String × PyVal)) (k : String)
    (v : PyVal) : lookupKey (setKey j k v) k = some v := by
  induction j with
  | nil => simp [setKey, lookupKey]
  | cons p rest ih =>
    obtain ⟨k0, v0⟩ := p
    by_cases h : k0 = k
    · simp [setKey, h, lookupKey]
    · simp [setKey, h, lookupKey, ih]

theorem lookup_setKey_ne (j : List (String × PyVal)) (k k' : String)
    (v : PyVal) (h : k' ≠ k) :
    lookupKey (setKey j k v) k' = lookupKey j k' := by
  induction j with
  | nil =>
    have hne : ¬ k = k' := fun hh => h hh.symm
    simp [setKey, lookupKey, hne]
  | cons p rest ih =>
    obtain ⟨k0, v0⟩ := p
    by_cases h0 : k0 = k
    · have hne : ¬ k = k' := fun hh => h hh.symm
      simp [setKey, h0, lookupKey, hne]
    · by_cases h1 : k0 = k'
      · subst h1
        simp [setKey, h0, lookupKey]
      · simp [setKey, h0, lookupKey, h1, ih]

theorem keys_setKey_of_lookup (j : List (String × PyVal)) (k : String)
    (v w : PyVal) (h : lookupKey j k = some w) :
    (setKey j k v).map Prod.fst = j.map Prod.fst := by
  induction j with
  | nil => simp [lookupKey] at h
  | cons p rest ih =>
    obtain ⟨k0, v0⟩ := p
    by_cases h0 : k0 = k
    · simp [setKey, h0]
    · simp [lookupKey, h0] at h
      simp [setKey, h0, ih h]

theorem lookup_isSome_of_mem_keys (j : List (String × PyVal)) (k : String)
    (h : k ∈ j.map Prod.fst) : ∃ v, lookupKey j k = some v := by
  induction j with
  | nil => simp at h
  | cons p rest ih =>
    obtain ⟨k0, v0⟩ := p
    by_cases h0 : k0 = k
    · exact ⟨v0, by simp [lookupKey, h0]⟩
    · have hr : k ∈ rest.map Prod.fst := by
        rw [List.map_cons] at h
        rcases List.mem_cons.1 h with he | hr
        · exact absurd he.symm h0
        · exact hr
      obtain ⟨v, hv⟩ := ih hr
      exact ⟨v, by simp [lookupKey, h0, hv]⟩

theorem lookup_none_of_not_mem_keys (j : List (String × PyVal)) (k : String)
    (h : k ∉ j.map Prod.fst) : lookupKey j k = none := by
  induction j with
  | nil => rfl
  | cons p rest ih =>
    obtain ⟨k0, v0⟩ := p
    rw [List.map_cons] at h
    have h1 : ¬ k0 = k := fun he => h (by rw [he]; exact List.mem_cons_self _ _)
    have h2 : k ∉ rest.map Prod.fst := fun hm => h (List.mem_cons_of_mem _ hm)
    simp [lookupKey, h1, ih h2]

theorem lookup_of_mem_nodup (j : List (String × PyVal)) (k : String)
    (v : PyVal) (hmem : (k, v) ∈ j) (hnd : (j.map Prod.fst).Nodup) :
    lookupKey j k = some v := by
  induction j with
  | nil => simp at hmem
  | cons p rest ih =>
    obtain ⟨k0, v0⟩ := p
    rw [List.map_cons] at hnd
    have hnd1 : k0 ∉ rest.map Prod.fst := (List.nodup_cons.1 hnd).1
    have hnd2 : (rest.map Prod.fst).Nodup := (List.nodup_cons.1 hnd).2
    rcases List.mem_cons.1 hmem with he | hr
    · injection he with e1 e2
      subst e1
      subst e2
      simp [lookupKey]
    · have hk : ¬ k0 = k := by
        intro he0
        subst he0
        exact hnd1 (List.mem_map_of_mem Prod.fst hr)
      simp [lookupKey, hk, ih hr hnd2]

theorem isListVal_iff (o : Option PyVal) :
    isListVal o = true ↔ ∃ xs, o = some (PyVal.vlist xs) := by
  cases o with
  | none => simp [isListVal]
  | some v => cases v <;> simp [isListVal]

theorem fixArity_eq (xs : List String) (n : Nat) :
    fixArity xs n = xs.take n ++ List.replicate (n - xs.length) "" := by
  unfold fixArity
  by_cases h : xs.length > n
  · have h1 : n - xs.length = 0 := by omega
    simp [h, h1]
  · have h2 : xs.take n = xs := List.take_of_length_le (by omega)
    simp [h, h2]

theorem fixArity_length (xs : List String) (n : Nat) :
    (fixArity xs n).length = n := by
  rw [fixArity_eq]
  simp
  omega

theorem validateKeys_ok (n : Nat) (ks : List String)
    (j : List (String × PyVal)) (hnd : ks.Nodup)
    (h : ∀ k ∈ ks, isListVal (lookupKey j k) = true) :
    ∃ d, validateKeys n ks j = Except.ok d ∧
      (∀ k, k ∉ ks → lookupKey d k = lookupKey j k) ∧
      (∀ k ∈ ks, ∀ xs, lookupKey j k = some (PyVal.vlist xs) →
        lookupKey d k = some (PyVal.vlist (fixArity xs n))) := by
  induction ks generalizing j with
  | nil => exact ⟨j, rfl, fun k _ => rfl, by simp⟩
  | cons k0 rest ih =>
    obtain ⟨xs0, hx0⟩ := (isListVal_iff _).1 (h k0 (by simp))
    have hstep : validateStep n j k0 =
        Except.ok (setKey j k0 (PyVal.vlist (fixArity xs0 n))) := by
      simp [validateStep, hx0]
    have hnd0 : k0 ∉ rest := (List.nodup_cons.1 hnd).1
    have hndr : rest.Nodup := (List.nodup_cons.1 hnd).2
    have hrest : ∀ k ∈ rest,
        isListVal (lookupKey (setKey j k0 (PyVal.vlist (fixArity xs0 n))) k)
          = true := by
      intro k hk
      have hne : k ≠ k0 := fun he => hnd0 (he ▸ hk)
      rw [lookup_setKey_ne _ _ _ _ hne]
      exact h k (by simp [hk])
    obtain ⟨d, hd, hout, hin⟩ := ih _ hndr hrest
    refine ⟨d, ?_, ?_, ?_⟩
    · rw [validateKeys, hstep]
      exact hd
    · intro k hk
      simp at hk
      rw [hout k hk.2, lookup_setKey_ne _ _ _ _ hk.1]
    · intro k hk xs hxs
      rcases (List.mem_cons.1 hk) with he | hr
      · subst he
        rw [hx0] at hxs
        obtain rfl : xs0 = xs := by
          simpa using hxs
        rw [hout k hnd0, lookup_setKey_self]
      · have hne : k ≠ k0 := fun he =>
          hnd0 (he ▸ hr)
        exact hin k hr xs
          (by rw [lookup_setKey_ne _ _ _ _ hne]; exact hxs)

theorem validateKeys_ok_keys (n : Nat) (ks : List String)
    (j d : List (String × PyVal))
    (hd : validateKeys n ks j = Except.ok d) :
    ∀ k ∈ ks, isListVal (lookupKey j k) = true := by
  induction ks generalizing j with
  | nil => simp
  | cons k0 rest ih =>
    intro k hk
    rw [validateKeys] at hd
    cases hv : validateStep n j k0 with
    | error e => rw [hv] at hd; simp at hd
    | ok j' =>
      rw [hv] at hd
      unfold validateStep at hv
      cases hl : lookupKey j k0 with
      | none => rw [hl] at hv; simp at hv
      | some v =>
        cases v with
        | vstr s => rw [hl] at hv; simp at hv
        | vlist xs0 =>
          rw [hl] at hv
          simp at hv
          rcases List.mem_cons.1 hk with he | hr
          · subst he; simp [hl, isListVal]
          · by_cases hek : k = k0
            · subst hek; simp [hl, isListVal]
            · have := ih j' hd k hr
              rw [← hv, lookup_setKey_ne _ _ _ _ hek] at this
              exact this

theorem validate_ok_iff (j : List (String × PyVal)) (n : Nat) :
    exOk (validate_output j n) = true ↔
      ∀ k ∈ requiredKeys, isListVal (lookupKey j k) = true := by
  constructor
  · intro h
    cases hv : validate_output j n with
    | error e => rw [hv] at h; simp [exOk] at h
    | ok d => exact validateKeys_ok_keys n requiredKeys j d hv
  · intro h
    obtain ⟨d, hd, -, -⟩ :=
      validateKeys_ok n requiredKeys j (by decide) h
    rw [validate_output, hd]
    rfl

/-- C1 (amended): for every `n` and every parsed object `j` in which all
six required keys are present with list values, `_validate_output`
succeeds and leaves every required key with exactly `n` items, obtained by
truncating to `n` and right-padding with empty strings; and the validation
fails exactly when some required key is absent or bound to a non-list
value. -/
theorem c1_validation (n : Nat) (j : List (String × PyVal)) :
    ((∀ k ∈ requiredKeys, isListVal (lookupKey j k) = true) →
      ∃ d, validate_output j n = Except.ok d ∧
        ∀ k ∈ requiredKeys, ∀ xs, lookupKey j k = some (PyVal.vlist xs) →
          lookupKey d k =
            some (PyVal.vlist (xs.take n ++ List.replicate (n - xs.length) ""))
          ∧ (xs.take n ++ List.replicate (n - xs.length) "").length = n) ∧
    (exOk (validate_output j n) = false ↔
      ∃ k ∈ requiredKeys, isListVal (lookupKey j k) = false) := by
  constructor
  · intro h
    obtain ⟨d, hd, -, hin⟩ :=
      validateKeys_ok n requiredKeys j (by decide) h
    refine ⟨d, hd, ?_⟩
    intro k hk xs hxs
    have := hin k hk xs hxs
    rw [fixArity_eq] at this
    refine ⟨this, ?_⟩
    rw [← fixArity_eq, fixArity_length]
  · constructor
    · intro h
      by_contra hc
      push_neg at hc
      have hall : ∀ k ∈ requiredKeys, isListVal (lookupKey j k) = true := by
        intro k hk
        rcases Bool.eq_false_or_eq_true (isListVal (lookupKey j k)) with hb | hb
        · exact hb
        · exact absurd hb (hc k hk)
      rw [(validate_ok_iff j n).2 hall] at h
      simp at h
    · intro h
      obtain ⟨k, hk, hv⟩ := h
      by_contra hc
      have hok : exOk (validate_output j n) = true := by
        rcases Bool.eq_false_or_eq_true (exOk (validate_output j n)) with hb | hb
        · exact hb
        · exact absurd hb hc
      have := (validate_ok_iff j n).1 hok k hk
      rw [hv] at this
      simp at this

/-- Witness for C1 at a concrete object: all six keys present as lists of
lengths 3, 0 and 1, validated against n = 2. -/
theorem c1_validation_witness :
    ((∀ k ∈ requiredKeys,
        isListVal (lookupKey
          [("q_en", PyVal.vlist ["w1", "w2", "w3"]), ("a_en", PyVal.vlist []),
           ("q_hi", PyVal.vlist ["x"]), ("a_hi", PyVal.vlist ["y"]),
           ("q_sa", PyVal.vlist ["z"]), ("a_sa", PyVal.vlist ["u"])] k) = true) →
      ∃ d, validate_output
          [("q_en", PyVal.vlist ["w1", "w2", "w3"]), ("a_en", PyVal.vlist []),
           ("q_hi", PyVal.vlist ["x"]), ("a_hi", PyVal.vlist ["y"]),
           ("q_sa", PyVal.vlist ["z"]), ("a_sa", PyVal.vlist ["u"])] 2 = Except.ok d ∧
        ∀ k ∈ requiredKeys, ∀ xs,
          lookupKey
            [("q_en", PyVal.vlist ["w1", "w2", "w3"]), ("a_en", PyVal.vlist []),
             ("q_hi", PyVal.vlist ["x"]), ("a_hi", PyVal.vlist ["y"]),
             ("q_sa", PyVal.vlist ["z"]), ("a_sa", PyVal.vlist ["u"])] k
            = some (PyVal.vlist xs) →
          lookupKey d k =
            some (PyVal.vlist (xs.take 2 ++ List.replicate (2 - xs.length) ""))
          ∧ (xs.take 2 ++ List.replicate (2 - xs.length) "").length = 2) ∧
    (exOk (validate_output
        [("q_en", PyVal.vlist ["w1", "w2", "w3"]), ("a_en", PyVal.vlist []),
         ("q_hi", PyVal.vlist ["x"]), ("a_hi", PyVal.vlist ["y"]),
         ("q_sa", PyVal.vlist ["z"]), ("a_sa", PyVal.vlist ["u"])] 2) = false ↔
      ∃ k ∈ requiredKeys,
        isListVal (lookupKey
          [("q_en", PyVal.vlist ["w1", "w2", "w3"]), ("a_en", PyVal.vlist []),
           ("q_hi", PyVal.vlist ["x"]), ("a_hi", PyVal.vlist ["y"]),
           ("q_sa", PyVal.vlist ["z"]), ("a_sa", PyVal.vlist ["u"])] k) = false) :=
  c1_validation 2 _

/-- Counterexample to C1 as frozen: in this object every required key is
present (none is absent), yet validation is fatal, because `q_en` is bound
to a plain string rather than a list.  Hence absence of a required key is
not the one condition fatal to an attempt. -/
theorem c1_claim_counterexample :
    (requiredKeys.all (fun k =>
      (lookupKey
        [("q_en", PyVal.vstr "not a list"), ("a_en", PyVal.vlist ["a"]),
         ("q_hi", PyVal.vlist ["b"]), ("a_hi", PyVal.vlist ["c"]),
         ("q_sa", PyVal.vlist ["d"]), ("a_sa", PyVal.vlist ["e"])] k).isSome)
      = true) ∧
    exOk (validate_output
      [("q_en", PyVal.vstr "not a list"), ("a_en", PyVal.vlist ["a"]),
       ("q_hi", PyVal.vlist ["b"]), ("a_hi", PyVal.vlist ["c"]),
       ("q_sa", PyVal.vlist ["d"]), ("a_sa", PyVal.vlist ["e"])] 1) = false := by
  constructor
  · decide
  · decide

/-- A successful single generation attempt: `_generate_single_qa` validates
its parsed dict with `n = 1` before returning it, so a success carries
exactly one string per required key. -/
structure Single where
  q_en : String
  a_en : String
  q_hi : String
  a_hi : String
  q_sa : String
  a_sa : String
deriving DecidableEq, Repr

/-- The item a successful attempt contributes to a given accumulator key. -/
def keyProj (k : String) (s : Single) : String :=
  if k = "q_en" then s.q_en
  else if k = "a_en" then s.a_en
  else if k = "q_hi" then s.q_hi
  else if k = "a_hi" then s.a_hi
  else if k = "q_sa" then s.q_sa
  else s.a_sa

/-- The accumulator dict of `generate_for_row` after all futures settle:
starting from six empty lists, each completed attempt extends every key's
list by its single item, in completion order. -/
def mergeResults (succ : List Single) : List (String × PyVal) :=
  requiredKeys.map (fun k => (k, PyVal.vlist (succ.map (keyProj k))))

/-- Python substring test `needle in hay`. -/
def containsSub (hay needle : String) : Bool :=
  (List.range (hay.data.length + 1)).any (fun i =>
    (hay.data.drop i).take needle.data.length == needle.data)

/-- Embedding of `_check_server_health` of `generate_api.py`.  The server
listing is `none` when the tags endpoint is unreachable or returns a
non-200 status, and `some names` otherwise; `envModel` is the
environment-configured `MODEL_NAME`.  The check passes when `envModel` is
a substring of some listed model name. -/
def check_server_health (serverModels : Option (List String))
    (envModel : String) : Bool :=
  match serverModels with
  | none => false
  | some names => names.any (fun nm => containsSub nm envModel)

/-- Number of failed attempts among the settled futures. -/
def countFailures (outcomes : List (Option Single)) : Nat :=
  (outcomes.filter (fun o => o.isNone)).length

/-- Embedding of `generate_for_row` of `generate_api.py`.  `outcomes` is
the oracle of the `n` concurrent `_generate_single_qa` futures in
completion order (`none` = the attempt raised after its internal retries
and is dropped; `some s` = its validated single-item result).  `modelArg`
is the `model` parameter of the call: it is forwarded to the attempt
payloads (absorbed here by the outcomes oracle) and is never consulted by
the health gate, which uses the environment-configured model name. -/
def generate_for_row (serverModels : Option (List String))
    (envModel modelArg : String) (n : Nat)
    (outcomes : List (Option Single)) :
    Except String (List (String × PyVal)) :=
  if check_server_health serverModels envModel then
    validate_output (mergeResults (outcomes.filterMap id)) n
  else
    Except.error "Ollama server is not available or model not found"

theorem lookup_keyedMap (ks : List String) (f : String → PyVal) (k : String)
    (hk : k ∈ ks) :
    lookupKey (ks.map (fun k' => (k', f k'))) k = some (f k) := by
  induction ks with
  | nil => simp at hk
  | cons k0 rest ih =>
    by_cases h0 : k0 = k
    · subst h0
      simp [lookupKey]
    · rcases List.mem_cons.1 hk with he | hr
      · exact absurd he.symm h0
      · simp [lookupKey, h0, ih hr]

theorem filterMap_id_length_add (outcomes : List (Option Single)) :
    (outcomes.filterMap id).length + countFailures outcomes
      = outcomes.length := by
  induction outcomes with
  | nil => rfl
  | cons o rest ih =>
    cases o with
    | none =>
      unfold countFailures at *
      simp [List.filterMap_cons, List.filter_cons] at *
      omega
    | some s =>
      unfold countFailures at *
      simp [List.filterMap_cons, List.filter_cons] at *
      omega

/-- C2: with the health gate passing and `m` of the `n` settled attempts
failed, `generate_for_row` returns (never raises) a result whose six key
lists each hold exactly `n` items: the successful attempts' items in
completion order followed by `m` padding empty strings; and when the
health gate fails the call raises before dispatching any attempt. -/
theorem c2_fanout_partial_yield (serverModels : Option (List String))
    (envModel modelArg : String) (n : Nat)
    (outcomes : List (Option Single)) (hlen : outcomes.length = n) :
    (check_server_health serverModels envModel = true →
      ∃ d, generate_for_row serverModels envModel modelArg n outcomes
          = Except.ok d ∧
        ∀ k ∈ requiredKeys,
          lookupKey d k = some (PyVal.vlist
            ((outcomes.filterMap id).map (keyProj k)
              ++ List.replicate (countFailures outcomes) "")) ∧
          ((outcomes.filterMap id).map (keyProj k)
              ++ List.replicate (countFailures outcomes) "").length = n) ∧
    (check_server_health serverModels envModel = false →
      generate_for_row serverModels envModel modelArg n outcomes
        = Except.error "Ollama server is not available or model not found") := by
  have hsum := filterMap_id_length_add outcomes
  constructor
  · intro hh
    have hlk : ∀ k ∈ requiredKeys,
        lookupKey (mergeResults (outcomes.filterMap id)) k
          = some (PyVal.vlist ((outcomes.filterMap id).map (keyProj k))) := by
      intro k hk
      exact lookup_keyedMap requiredKeys _ k hk
    have hlists : ∀ k ∈ requiredKeys,
        isListVal (lookupKey (mergeResults (outcomes.filterMap id)) k)
          = true := by
      intro k hk
      rw [hlk k hk]
      rfl
    obtain ⟨d, hd, -, hin⟩ :=
      validateKeys_ok n requiredKeys (mergeResults (outcomes.filterMap id))
        (by decide) hlists
    refine ⟨d, ?_, ?_⟩
    · rw [generate_for_row, if_pos hh, validate_output]
      exact hd
    · intro k hk
      have hv := hin k hk _ (hlk k hk)
      have hmlen : ((outcomes.filterMap id).map (keyProj k)).length
          = (outcomes.filterMap id).length := List.length_map _ _
      have hle : ((outcomes.filterMap id).map (keyProj k)).length ≤ n := by
        omega
      have hfix : fixArity ((outcomes.filterMap id).map (keyProj k)) n
          = (outcomes.filterMap id).map (keyProj k)
            ++ List.replicate (countFailures outcomes) "" := by
        rw [fixArity_eq, List.take_of_length_le hle]
        congr 1
        congr 1
        omega
      rw [hfix] at hv
      refine ⟨hv, ?_⟩
      simp
      omega
  · intro hh
    rw [generate_for_row, if_neg (by rw [hh]; exact Bool.false_ne_true)]

/-- Witness for C2 at a concrete call: a healthy server, `n = 2`, one
successful attempt and one failed attempt. -/
theorem c2_fanout_partial_yield_witness :
    (check_server_health (some ["gpt-oss:120b"]) "gpt-oss:120b" = true →
      ∃ d, generate_for_row (some ["gpt-oss:120b"]) "gpt-oss:120b"
            "gpt-oss:120b" 2
            [some ⟨"q1", "a1", "q2", "a2", "q3", "a3"⟩, none]
          = Except.ok d ∧
        ∀ k ∈ requiredKeys,
          lookupKey d k = some (PyVal.vlist
            (([some (⟨"q1", "a1", "q2", "a2", "q3", "a3"⟩ : Single),
               none].filterMap id).map (keyProj k)
              ++ List.replicate (countFailures
                  [some ⟨"q1", "a1", "q2", "a2", "q3", "a3"⟩, none]) "")) ∧
          (([some (⟨"q1", "a1", "q2", "a2", "q3", "a3"⟩ : Single),
             none].filterMap id).map (keyProj k)
              ++ List.replicate (countFailures
                  [some ⟨"q1", "a1", "q2", "a2", "q3", "a3"⟩, none]) "").length
            = 2) ∧
    (check_server_health (some ["gpt-oss:120b"]) "gpt-oss:120b" = false →
      generate_for_row (some ["gpt-oss:120b"]) "gpt-oss:120b"
          "gpt-oss:120b" 2
          [some ⟨"q1", "a1", "q2", "a2", "q3", "a3"⟩, none]
        = Except.error "Ollama server is not available or model not found") :=
  c2_fanout_partial_yield (some ["gpt-oss:120b"]) "gpt-oss:120b"
    "gpt-oss:120b" 2 [some ⟨"q1", "a1", "q2", "a2", "q3", "a3"⟩, none]
    (by decide)

/-- C9: the health gate of `generate_for_row` compares only the
environment-configured model name against the server listing, so the
call's outcome is independent of its `model` argument, and a call whose
`model` argument appears in no listed name still passes the gate and
dispatches its attempts. -/
theorem c9_health_env_model :
    (∀ (serverModels : Option (List String)) (envModel m1 m2 : String)
        (n : Nat) (outcomes : List (Option Single)),
      generate_for_row serverModels envModel m1 n outcomes
        = generate_for_row serverModels envModel m2 n outcomes) ∧
    check_server_health (some ["gpt-oss:120b"]) "gpt-oss:120b" = true ∧
    (["gpt-oss:120b"] : List String).all
      (fun nm => !containsSub nm "llama3") = true ∧
    exOk (generate_for_row (some ["gpt-oss:120b"]) "gpt-oss:120b" "llama3" 1
      [some ⟨"q1", "a1", "q2", "a2", "q3", "a3"⟩]) = true := by
  refine ⟨fun _ _ _ _ _ _ => rfl, by decide, by decide, by decide⟩

/-- Python `str()` of a table cell value.  String cells print as
themselves; a list cell prints in Python list notation with single-quoted
items (the quote character is spelled by code point). -/
def pyStr : PyVal → String
  | PyVal.vstr s => s
  | PyVal.vlist xs =>
      "[" ++ String.intercalate ", "
        (xs.map (fun s =>
          String.singleton (Char.ofNat 39) ++ s ++ String.singleton (Char.ofNat 39)))
      ++ "]"

/-- Python `str.strip()`: drop whitespace from both ends. -/
def pyStrip (s : String) : String :=
  String.mk ((((s.data.dropWhile Char.isWhitespace).reverse).dropWhile
    Char.isWhitespace).reverse)

/-- Boolean prefix test on character lists (first argument is the
candidate lead). -/
def charsLeadWith : List Char → List Char → Bool
  | [], _ => true
  | _ :: _, [] => false
  | a :: as, b :: bs => a == b && charsLeadWith as bs

/-- Python `s.startswith(p)`. -/
def pyStartsWith (s p : String) : Bool := charsLeadWith p.data s.data

theorem charsLeadWith_append (p a b : List Char)
    (h : charsLeadWith p a = true) : charsLeadWith p (a ++ b) = true := by
  induction p generalizing a with
  | nil => rfl
  | cons c cs ih =>
    cases a with
    | nil => simp [charsLeadWith] at h
    | cons d ds =>
      rw [List.cons_append]
      rw [charsLeadWith] at h ⊢
      simp at h ⊢
      exact ⟨h.1, ih ds h.2⟩

theorem pyStartsWith_append (s t p : String)
    (h : pyStartsWith s p = true) : pyStartsWith (s ++ t) p = true := by
  unfold pyStartsWith at *
  rw [String.data_append]
  exact charsLeadWith_append _ _ _ h

/-- The in-memory pandas frame of `storage.py`: column names in order,
and one association row per record whose keys are exactly the columns. -/
structure DataFrame where
  cols : List String
  rows : List (List (String × PyVal))
deriving DecidableEq, Repr

/-- Well-formedness: every row has exactly the frame's columns as keys. -/
def DataFrame.wf (df : DataFrame) : Prop :=
  ∀ r ∈ df.rows, r.map Prod.fst = df.cols

/-- Cell read `df.at[i, c]` (also `row.get(c)` on a fetched row). -/
def DataFrame.getCell (df : DataFrame) (i : Nat) (c : String) :
    Option PyVal :=
  match df.rows[i]? with
  | none => none
  | some r => lookupKey r c

/-- Cell write `df.at[idx, c] = v`; the callers in `storage.py` only use
it on an existing column `c`. -/
def DataFrame.setCell (df : DataFrame) (i : Nat) (c : String) (v : PyVal) :
    DataFrame :=
  match df.rows[i]? with
  | none => df
  | some r => ⟨df.cols, df.rows.set i (setKey r c v)⟩

/-- Column creation `if c not in df.columns: df[c] = ""`: appends the
column with an empty-string cell in every row, or does nothing when the
column exists. -/
def DataFrame.addCol (df : DataFrame) (c : String) : DataFrame :=
  if c ∈ df.cols then df
  else ⟨df.cols ++ [c], df.rows.map (fun r => r ++ [(c, PyVal.vstr "")])⟩

theorem lookup_append_single_ne (r : List (String × PyVal)) (c c' : String)
    (v : PyVal) (h : c' ≠ c) :
    lookupKey (r ++ [(c, v)]) c' = lookupKey r c' := by
  induction r with
  | nil =>
    have hne : ¬ c = c' := fun he => h he.symm
    simp [lookupKey, hne]
  | cons p rest ih =>
    obtain ⟨k0, v0⟩ := p
    by_cases h0 : k0 = c'
    · simp [lookupKey, h0]
    · simp [lookupKey, h0, ih]

theorem lookup_append_single_self (r : List (String × PyVal)) (c : String)
    (v : PyVal) (h : lookupKey r c = none) :
    lookupKey (r ++ [(c, v)]) c = some v := by
  induction r with
  | nil => simp [lookupKey]
  | cons p rest ih =>
    obtain ⟨k0, v0⟩ := p
    by_cases h0 : k0 = c
    · rw [lookupKey, if_pos h0] at h
      simp at h
    · rw [lookupKey, if_neg h0] at h
      simp [lookupKey, h0, ih h]

theorem DataFrame.cols_setCell (df : DataFrame) (i : Nat) (c : String)
    (v : PyVal) : (df.setCell i c v).cols = df.cols := by
  unfold DataFrame.setCell
  cases df.rows[i]? <;> rfl

theorem DataFrame.rowsLen_setCell (df : DataFrame) (i : Nat) (c : String)
    (v : PyVal) : (df.setCell i c v).rows.length = df.rows.length := by
  unfold DataFrame.setCell
  cases df.rows[i]? with
  | none => rfl
  | some r => simp

theorem DataFrame.getCell_setCell_self (df : DataFrame) (i : Nat)
    (c : String) (v : PyVal) (hi : i < df.rows.length) :
    (df.setCell i c v).getCell i c = some v := by
  have h : df.rows[i]? = some df.rows[i] := List.getElem?_eq_getElem hi
  unfold DataFrame.setCell
  rw [h]
  unfold DataFrame.getCell
  simp only
  rw [List.getElem?_set_eq_of_lt _ hi]
  exact lookup_setKey_self _ _ _

theorem DataFrame.getCell_setCell_ne_col (df : DataFrame) (i i' : Nat)
    (c c' : String) (v : PyVal) (h : c' ≠ c) :
    (df.setCell i c v).getCell i' c' = df.getCell i' c' := by
  unfold DataFrame.setCell
  cases hrow : df.rows[i]? with
  | none => rfl
  | some r =>
    unfold DataFrame.getCell
    simp only
    by_cases hii : i' = i
    · subst hii
      have hi : i' < df.rows.length := by
        by_contra hc
        rw [List.getElem?_eq_none (by omega)] at hrow
        exact Option.noConfusion hrow
      rw [List.getElem?_set_eq_of_lt _ hi, hrow]
      exact lookup_setKey_ne _ _ _ _ h
    · rw [List.getElem?_set_ne (fun he => hii he.symm)]

theorem DataFrame.getCell_setCell_ne_row (df : DataFrame) (i i' : Nat)
    (c c' : String) (v : PyVal) (h : i' ≠ i) :
    (df.setCell i c v).getCell i' c' = df.getCell i' c' := by
  unfold DataFrame.setCell
  cases hrow : df.rows[i]? with
  | none => rfl
  | some r =>
    unfold DataFrame.getCell
    simp only
    rw [List.getElem?_set_ne (fun he => h he.symm)]

theorem DataFrame.wf_setCell (df : DataFrame) (i : Nat) (c : String)
    (v : PyVal) (hwf : df.wf) (hc : c ∈ df.cols) :
    (df.setCell i c v).wf := by
  unfold DataFrame.setCell
  cases hrow : df.rows[i]? with
  | none => exact hwf
  | some r =>
    intro r' hr'
    simp only at hr'
    rcases List.mem_or_eq_of_mem_set hr' with hmem | heq
    · exact hwf r' hmem
    · subst heq
      have hi : i < df.rows.length := by
        by_contra hc
        rw [List.getElem?_eq_none (by omega)] at hrow
        exact Option.noConfusion hrow
      have hre : df.rows[i] = r := by
        rw [List.getElem?_eq_getElem hi] at hrow
        exact Option.some.inj hrow
      have hrmem : r ∈ df.rows := hre ▸ List.getElem_mem hi
      have hkeys : r.map Prod.fst = df.cols := hwf r hrmem
      obtain ⟨w, hw⟩ := lookup_isSome_of_mem_keys r c (by rw [hkeys]; exact hc)
      rw [keys_setKey_of_lookup r c v w hw]
      exact hkeys

theorem DataFrame.cols_addCol_mem (df : DataFrame) (c c' : String)
    (h : c' ∈ df.cols) : c' ∈ (df.addCol c).cols := by
  unfold DataFrame.addCol
  split
  · exact h
  · exact List.mem_append_left _ h

theorem DataFrame.rowsLen_addCol (df : DataFrame) (c : String) :
    (df.addCol c).rows.length = df.rows.length := by
  unfold DataFrame.addCol
  split
  · rfl
  · simp

theorem DataFrame.wf_addCol (df : DataFrame) (c : String) (hwf : df.wf) :
    (df.addCol c).wf := by
  unfold DataFrame.addCol
  split
  · exact hwf
  · intro r' hr'
    simp only at hr'
    obtain ⟨r, hr, rfl⟩ := List.mem_map.1 hr'
    simp [hwf r hr]

theorem DataFrame.getCell_addCol_ne (df : DataFrame) (i : Nat)
    (c c' : String) (h : c' ≠ c) :
    (df.addCol c).getCell i c' = df.getCell i c' := by
  unfold DataFrame.addCol
  split
  · rfl
  · unfold DataFrame.getCell
    simp only [List.getElem?_map]
    cases df.rows[i]? with
    | none => rfl
    | some r =>
      simp only [Option.map_some']
      exact lookup_append_single_ne r c c' _ h

theorem DataFrame.getCell_addCol_self (df : DataFrame) (i : Nat)
    (c : String) (hwf : df.wf) (hc : c ∉ df.cols)
    (hi : i < df.rows.length) :
    (df.addCol c).getCell i c = some (PyVal.vstr "") := by
  unfold DataFrame.addCol
  rw [if_neg hc]
  unfold DataFrame.getCell
  simp only [List.getElem?_map]
  have h : df.rows[i]? = some df.rows[i] := List.getElem?_eq_getElem hi
  rw [h]
  simp only [Option.map_some']
  have hmem : df.rows[i] ∈ df.rows := List.getElem_mem _
  have hkeys := hwf _ hmem
  apply lookup_append_single_self
  apply lookup_none_of_not_mem_keys
  rw [hkeys]
  exact hc

/-- Question-column name test of `has_existing_qa_data`. -/
def qaQuestionPref (c : String) : Bool :=
  pyStartsWith c "q_en_" || pyStartsWith c "q_hi_" || pyStartsWith c "q_sa_"

/-- Embedding of `CSVStorage.has_existing_qa_data` of `storage.py`: false
for an out-of-range index; otherwise true when some column whose name
starts with `q_en_`, `q_hi_` or `q_sa_` holds a cell whose stripped string
form is non-empty.  Answer columns are not inspected by the source. -/
def has_existing_qa_data (df : DataFrame) (idx : Int) : Bool :=
  if idx < 0 || (df.rows.length : Int) ≤ idx then false
  else
    (df.cols.filter qaQuestionPref).any (fun c =>
      !(pyStrip (pyStr ((df.getCell idx.toNat c).getD (PyVal.vstr ""))) == ""))

/-- C3 (amended): `has_existing_qa_data` returns true iff the index is in
range and at least one question column (prefix `q_en_`, `q_hi_` or
`q_sa_`) of that row holds content whose stripped form is non-empty;
answer columns are not consulted, and any out-of-range index yields
false. -/
theorem c3_has_existing_qa (df : DataFrame) (idx : Int) :
    has_existing_qa_data df idx = true ↔
      (0 ≤ idx ∧ idx < (df.rows.length : Int) ∧
        ∃ c ∈ df.cols, qaQuestionPref c = true ∧
          pyStrip (pyStr ((df.getCell idx.toNat c).getD (PyVal.vstr ""))) ≠ "") := by
  unfold has_existing_qa_data
  by_cases hr : idx < 0 || (df.rows.length : Int) ≤ idx
  · rw [if_pos hr]
    simp only [Bool.or_eq_true, decide_eq_true_eq] at hr
    constructor
    · intro h
      exact absurd h (by simp)
    · rintro ⟨h1, h2, -⟩
      rcases hr with h | h <;> omega
  · rw [if_neg hr]
    simp only [Bool.or_eq_true, decide_eq_true_eq] at hr
    push_neg at hr
    rw [List.any_eq_true]
    constructor
    · rintro ⟨c, hc, hval⟩
      obtain ⟨hcm, hcq⟩ := List.mem_filter.1 hc
      refine ⟨by omega, by omega, c, hcm, hcq, ?_⟩
      simpa using hval
    · rintro ⟨-, -, c, hcm, hcq, hval⟩
      refine ⟨c, List.mem_filter.2 ⟨hcm, hcq⟩, ?_⟩
      simpa using hval

/-- Counterexample to C3 as frozen: in this one-row table the answer
column `a_en_1` holds non-empty content while every question column is
empty, yet `has_existing_qa_data` reports false — answer slot columns do
not count. -/
theorem c3_claim_counterexample :
    (DataFrame.mk ["sanskrit", "english", "tags", "q_en_1", "a_en_1"]
      [[("sanskrit", PyVal.vstr "s"), ("english", PyVal.vstr "e"),
        ("tags", PyVal.vstr ""), ("q_en_1", PyVal.vstr ""),
        ("a_en_1", PyVal.vstr "answer")]]).getCell 0 "a_en_1"
      = some (PyVal.vstr "answer") ∧
    pyStartsWith "a_en_1" "a_" = true ∧
    has_existing_qa_data
      (DataFrame.mk ["sanskrit", "english", "tags", "q_en_1", "a_en_1"]
        [[("sanskrit", PyVal.vstr "s"), ("english", PyVal.vstr "e"),
          ("tags", PyVal.vstr ""), ("q_en_1", PyVal.vstr ""),
          ("a_en_1", PyVal.vstr "answer")]]) 0 = false := by
  refine ⟨by decide, by decide, by decide⟩

/-- Row field read of the batch loops: `row.get(c, "")` on a fetched row
with NaN cells already cleaned to empty strings. -/
def getField (df : DataFrame) (i : Nat) (c : String) : PyVal :=
  (df.getCell i c).getD (PyVal.vstr "")

/-- Python truthiness of a cell value. -/
def pyTruthy : PyVal → Bool
  | PyVal.vstr s => !(s == "")
  | PyVal.vlist xs => !xs.isEmpty

/-- The per-row dispatch decision shared by `process_files_batch` and
`process_files_with_detailed_status` in `app.py`: a row is submitted to
`generate_for_row` iff it does not already carry QA data (per
`has_existing_qa_data`) and both its `sanskrit` and `english` fields are
truthy. -/
def rowSubmitted (df : DataFrame) (i : Nat) : Bool :=
  !has_existing_qa_data df (Int.ofNat i) &&
    (pyTruthy (getField df i "sanskrit") && pyTruthy (getField df i "english"))

/-- The row indices one batch run submits to `generate_for_row`, iterating
`range(total_rows)` in order over the file's current table. -/
def batchSubmittedRows (df : DataFrame) : List Nat :=
  (List.range df.rows.length).filter (fun i => rowSubmitted df i)

/-- C4: during a batch run over the table's current state, a row reported
by `has_existing_qa_data` as already carrying QA data is never submitted
to `generate_for_row`; and a row is submitted exactly when it is in
range, carries no existing QA data, and both its source and translation
fields are non-empty.  Every batch run applies this same decision to the
table as it then stands, so a row whose QA data persists is skipped on
that and on every subsequent run. -/
theorem c4_idempotent_resume (df : DataFrame) (i : Nat) :
    (has_existing_qa_data df (Int.ofNat i) = true →
      i ∉ batchSubmittedRows df) ∧
    (i ∈ batchSubmittedRows df ↔
      (i < df.rows.length ∧
        has_existing_qa_data df (Int.ofNat i) = false ∧
        pyTruthy (getField df i "sanskrit") = true ∧
        pyTruthy (getField df i "english") = true)) := by
  have hiff : i ∈ batchSubmittedRows df ↔
      (i < df.rows.length ∧
        has_existing_qa_data df (Int.ofNat i) = false ∧
        pyTruthy (getField df i "sanskrit") = true ∧
        pyTruthy (getField df i "english") = true) := by
    unfold batchSubmittedRows rowSubmitted
    rw [List.mem_filter, List.mem_range]
    simp only [Bool.and_eq_true, Bool.not_eq_true']
  refine ⟨?_, hiff⟩
  intro h hmem
  rw [hiff] at hmem
  rw [hmem.2.1] at h
  exact Bool.false_ne_true h

/-- Witness for C4: a one-row table whose question column is filled; the
row is reported as carrying QA data and is not submitted. -/
theorem c4_idempotent_resume_witness :
    has_existing_qa_data
      (DataFrame.mk ["sanskrit", "english", "tags", "q_en_1"]
        [[("sanskrit", PyVal.vstr "s"), ("english", PyVal.vstr "e"),
          ("tags", PyVal.vstr ""), ("q_en_1", PyVal.vstr "old question")]])
      (Int.ofNat 0) = true ∧
    0 ∉ batchSubmittedRows
      (DataFrame.mk ["sanskrit", "english", "tags", "q_en_1"]
        [[("sanskrit", PyVal.vstr "s"), ("english", PyVal.vstr "e"),
          ("tags", PyVal.vstr ""), ("q_en_1", PyVal.vstr "old question")]]) :=
  ⟨by decide,
    (c4_idempotent_resume
      (DataFrame.mk ["sanskrit", "english", "tags", "q_en_1"]
        [[("sanskrit", PyVal.vstr "s"), ("english", PyVal.vstr "e"),
          ("tags", PyVal.vstr ""), ("q_en_1", PyVal.vstr "old question")]])
      0).1 (by decide)⟩

/-- Serialized form of one table row (`to_csv` line; quoting elided). -/
def encodeRow (r : List (String × PyVal)) : String :=
  String.intercalate "," (r.map (fun p => pyStr p.2))

/-- Serialized form of the whole table: header line then one line per
row, as `DataFrame.to_csv` writes it. -/
def encodeTable (df : DataFrame) : List String :=
  String.intercalate "," df.cols :: df.rows.map encodeRow

/-- Primitive file-system steps of the persistence path: appending one
line of the serialization to the staging file, and the atomic
`os.replace(tmp, path)`. -/
inductive FSOp where
  | writeTmpChunk (line : String)
  | replaceTmp
deriving DecidableEq, Repr

/-- Observable file-system state: the original table file and the staging
file. -/
structure FS where
  main : List String
  tmp : List String
deriving DecidableEq, Repr

/-- Effect of one primitive step. `replaceTmp` moves the staging content
over the original in a single step. -/
def FS.apply (fs : FS) : FSOp → FS
  | FSOp.writeTmpChunk l => ⟨fs.main, fs.tmp ++ [l]⟩
  | FSOp.replaceTmp => ⟨fs.tmp, []⟩

/-- The persistence sequence of `update_row_with_qas` and
`ensure_headers`: write the complete serialized table to the staging
file, then atomically replace the original. -/
def persistOps (content : List String) : List FSOp :=
  content.map FSOp.writeTmpChunk ++ [FSOp.replaceTmp]

theorem persist_chunks_foldl (cs : List String) (m t : List String) :
    ((cs.map FSOp.writeTmpChunk).foldl FS.apply ⟨m, t⟩) = ⟨m, t ++ cs⟩ := by
  induction cs generalizing t with
  | nil => simp
  | cons c rest ih =>
    simp only [List.map_cons, List.foldl_cons, FS.apply]
    rw [ih]
    simp

theorem persist_final (content old : List String) :
    ((persistOps content).foldl FS.apply ⟨old, []⟩) = ⟨content, []⟩ := by
  unfold persistOps
  rw [List.foldl_append, persist_chunks_foldl]
  simp [FS.apply]

theorem foldl_chunks_main (p : List FSOp) (fs : FS)
    (h : ∀ op ∈ p, ∃ l, op = FSOp.writeTmpChunk l) :
    (p.foldl FS.apply fs).main = fs.main := by
  induction p generalizing fs with
  | nil => rfl
  | cons op rest ih =>
    obtain ⟨l, rfl⟩ := h op (by simp)
    rw [List.foldl_cons]
    rw [ih _ (fun op' hop' => h op' (by simp [hop']))]
    rfl

theorem prefix_snoc (p l : List FSOp) (x : FSOp) (hp : p <+: l ++ [x]) :
    p <+: l ∨ p = l ++ [x] := by
  by_cases hl : p.length ≤ l.length
  · left
    exact List.prefix_of_prefix_length_le hp (List.prefix_append l [x]) hl
  · right
    obtain ⟨t, ht⟩ := hp
    have hlen : p.length + t.length = l.length + 1 := by
      have := congrArg List.length ht
      simpa using this
    have ht0 : t = [] := List.length_eq_zero.1 (by omega)
    rw [ht0, List.append_nil] at ht
    exact ht

theorem persist_prefix_main (content old : List String) (p : List FSOp)
    (hp : p <+: persistOps content) :
    (p.foldl FS.apply ⟨old, []⟩).main = old ∨
    (p.foldl FS.apply ⟨old, []⟩).main = content := by
  unfold persistOps at hp
  rcases prefix_snoc p _ _ hp with hpre | hful
  · left
    apply foldl_chunks_main
    intro op hop
    have hmem : op ∈ content.map FSOp.writeTmpChunk := hpre.subset hop
    obtain ⟨l, -, rfl⟩ := List.mem_map.1 hmem
    exact ⟨l, rfl⟩
  · right
    rw [hful]
    have := persist_final content old
    unfold persistOps at this
    rw [this]

/-- QA column/key name test `startswith(('q_', 'a_'))` of
`update_row_with_qas`. -/
def qaKeyPref (c : String) : Bool :=
  pyStartsWith c "q_" || pyStartsWith c "a_"

/-- Positional slot column for 1-based list position `j` of QA key `k`:
`f"{k}_{j}"`. -/
def colNameFor (k : String) (j : Nat) : String := k ++ "_" ++ toString j

/-- The clear loop of `update_row_with_qas`: set every listed column of
row `i` to the empty string. -/
def clearCells (df : DataFrame) (i : Nat) (cs : List String) : DataFrame :=
  cs.foldl (fun d c => d.setCell i c (PyVal.vstr "")) df

/-- The tags update of `update_row_with_qas`: when the payload carries a
`tags` entry, create the column if missing and write the raw value. -/
def applyTags (df : DataFrame) (i : Nat)
    (payload : List (String × PyVal)) : DataFrame :=
  match lookupKey payload "tags" with
  | some v => (df.addCol "tags").setCell i "tags" v
  | none => df

/-- Writing one QA key's list starting at 1-based position `m`: for each
item, create the positional column on demand and write the item. -/
def writeQAListFrom (df : DataFrame) (i : Nat) (k : String) (m : Nat)
    (xs : List String) : DataFrame :=
  (List.enumFrom m xs).foldl (fun d p =>
    (d.addCol (colNameFor k p.1)).setCell i (colNameFor k p.1)
      (PyVal.vstr p.2)) df

/-- Writing one QA key's list (`enumerate(payload[key], start=1)`). -/
def writeQAList (df : DataFrame) (i : Nat) (k : String)
    (xs : List String) : DataFrame :=
  writeQAListFrom df i k 1 xs

/-- One iteration of the write loop: a QA key whose payload value is a
list is written out; any other value is silently skipped
(`isinstance(payload[key], list)` guard). -/
def writeStep (i : Nat) (payload : List (String × PyVal))
    (d : DataFrame) (k : String) : DataFrame :=
  match lookupKey payload k with
  | some (PyVal.vlist xs) => writeQAList d i k xs
  | _ => d

/-- The write loop over a list of QA keys. -/
def writeKeysFold (df : DataFrame) (i : Nat)
    (payload : List (String × PyVal)) (ks : List String) : DataFrame :=
  ks.foldl (writeStep i payload) df

/-- The QA keys of the payload, in payload order. -/
def qaKeys (payload : List (String × PyVal)) : List String :=
  (payload.map Prod.fst).filter qaKeyPref

/-- The write loop of `update_row_with_qas` over the payload's QA keys. -/
def writeQAPayload (df : DataFrame) (i : Nat)
    (payload : List (String × PyVal)) : DataFrame :=
  writeKeysFold df i payload (qaKeys payload)

/-- Embedding of `CSVStorage.update_row_with_qas` of `storage.py`: false
and no change for an out-of-range index; otherwise clear all QA columns
of the row, write the tag if present, write each list-valued QA key's
items into their positional columns (creating columns on demand), and
return true.  Persistence is the stage-then-replace sequence
`persistOps (encodeTable result)`. -/
def update_row_with_qas (df : DataFrame) (idx : Int)
    (payload : List (String × PyVal)) : Bool × DataFrame :=
  if idx < 0 || (df.rows.length : Int) ≤ idx then (false, df)
  else
    (true, writeQAPayload
      (applyTags (clearCells df idx.toNat (df.cols.filter qaKeyPref))
        idx.toNat payload)
      idx.toNat payload)

/-- The slot columns the write loop touches for one QA key. -/
def blockOf (payload : List (String × PyVal)) (k : String) : List String :=
  match lookupKey payload k with
  | some (PyVal.vlist xs) =>
      (List.enumFrom 1 xs).map (fun p => colNameFor k p.1)
  | _ => []

/-- All slot columns the write loop touches. -/
def qaWriteCols (payload : List (String × PyVal)) : List String :=
  (qaKeys payload).flatMap (blockOf payload)

/-- Embedding of `CSVStorage.ensure_headers` column list
(`headers_for_qa_count`): the three fixed leading columns followed by the
q/a slot columns per language and position. -/
def headers_for_qa_count (n : Nat) : List String :=
  ["sanskrit", "english", "tags"] ++
    (["en", "hi", "sa"].flatMap (fun lang =>
      (List.range n).flatMap (fun i =>
        ["q_" ++ lang ++ "_" ++ toString (i + 1),
         "a_" ++ lang ++ "_" ++ toString (i + 1)])))

/-- Embedding of `CSVStorage.ensure_headers`: create each missing header
column, then persist by stage-then-replace. -/
def ensure_headers (df : DataFrame) (n : Nat) : DataFrame :=
  (headers_for_qa_count n).foldl (fun d h => d.addCol h) df

theorem mem_of_lookup (j : List (String × PyVal)) (k : String) (v : PyVal)
    (h : lookupKey j k = some v) : (k, v) ∈ j := by
  induction j with
  | nil => simp [lookupKey] at h
  | cons p rest ih =>
    obtain ⟨k0, v0⟩ := p
    by_cases h0 : k0 = k
    · rw [lookupKey, if_pos h0] at h
      injection h with hv
      subst h0
      subst hv
      simp
    · rw [lookupKey, if_neg h0] at h
      exact List.mem_cons_of_mem _ (ih h)

theorem DataFrame.mem_cols_addCol_self (df : DataFrame) (c : String) :
    c ∈ (df.addCol c).cols := by
  unfold DataFrame.addCol
  by_cases h : c ∈ df.cols
  · rw [if_pos h]
    exact h
  · rw [if_neg h]
    exact List.mem_append_right _ (by simp)

theorem clearCells_spec (cs : List String) (i : Nat) :
    ∀ df : DataFrame, df.wf → (∀ c ∈ cs, c ∈ df.cols) →
      i < df.rows.length →
      (clearCells df i cs).cols = df.cols ∧
      (clearCells df i cs).rows.length = df.rows.length ∧
      (clearCells df i cs).wf ∧
      (∀ c ∈ cs, (clearCells df i cs).getCell i c = some (PyVal.vstr "")) ∧
      (∀ c, c ∉ cs →
        ∀ i', (clearCells df i cs).getCell i' c = df.getCell i' c) := by
  induction cs with
  | nil =>
    intro df hwf _ _
    exact ⟨rfl, rfl, hwf, by simp, fun c _ i' => rfl⟩
  | cons c0 rest ih =>
    intro df hwf hcs hi
    have hc0 : c0 ∈ df.cols := hcs c0 (by simp)
    have hclr : clearCells df i (c0 :: rest)
        = clearCells (df.setCell i c0 (PyVal.vstr "")) i rest := rfl
    have hwf1 : (df.setCell i c0 (PyVal.vstr "")).wf :=
      DataFrame.wf_setCell df i c0 _ hwf hc0
    have hcols1 : (df.setCell i c0 (PyVal.vstr "")).cols = df.cols :=
      DataFrame.cols_setCell df i c0 _
    have hlen1 : (df.setCell i c0 (PyVal.vstr "")).rows.length
        = df.rows.length := DataFrame.rowsLen_setCell df i c0 _
    have hcs1 : ∀ c ∈ rest, c ∈ (df.setCell i c0 (PyVal.vstr "")).cols := by
      intro c hc
      rw [hcols1]
      exact hcs c (by simp [hc])
    obtain ⟨hcols2, hlen2, hwf2, hhit, hpres⟩ :=
      ih (df.setCell i c0 (PyVal.vstr "")) hwf1 hcs1 (by rw [hlen1]; exact hi)
    refine ⟨by rw [hclr, hcols2, hcols1],
            by rw [hclr, hlen2, hlen1],
            by rw [hclr]; exact hwf2, ?_, ?_⟩
    · intro c hc
      rcases List.mem_cons.1 hc with he | hr
      · subst he
        by_cases hcr : c ∈ rest
        · rw [hclr]
          exact hhit c hcr
        · rw [hclr, hpres c hcr i]
          exact DataFrame.getCell_setCell_self df i c _ hi
      · rw [hclr]
        exact hhit c hr
    · intro c hc i'
      have hne : c ≠ c0 := fun he => hc (by simp [he])
      have hcr : c ∉ rest := fun hr => hc (by simp [hr])
      rw [hclr, hpres c hcr i',
        DataFrame.getCell_setCell_ne_col df i i' c0 c _ hne]

theorem writeQAListFrom_basic (k : String) (xs : List String) (i : Nat) :
    ∀ (m : Nat) (df : DataFrame), df.wf → i < df.rows.length →
      (writeQAListFrom df i k m xs).wf ∧
      (writeQAListFrom df i k m xs).rows.length = df.rows.length ∧
      (∀ c ∈ df.cols, c ∈ (writeQAListFrom df i k m xs).cols) := by
  induction xs with
  | nil =>
    intro m df hwf _
    exact ⟨hwf, rfl, fun c hc => hc⟩
  | cons x rest ih =>
    intro m df hwf hi
    have hw : writeQAListFrom df i k m (x :: rest)
        = writeQAListFrom
            ((df.addCol (colNameFor k m)).setCell i (colNameFor k m)
              (PyVal.vstr x)) i k (m + 1) rest := rfl
    have hwfa : (df.addCol (colNameFor k m)).wf :=
      DataFrame.wf_addCol df _ hwf
    have hmema : colNameFor k m ∈ (df.addCol (colNameFor k m)).cols :=
      DataFrame.mem_cols_addCol_self df _
    have hwfs : ((df.addCol (colNameFor k m)).setCell i (colNameFor k m)
        (PyVal.vstr x)).wf := DataFrame.wf_setCell _ i _ _ hwfa hmema
    have hlen : ((df.addCol (colNameFor k m)).setCell i (colNameFor k m)
        (PyVal.vstr x)).rows.length = df.rows.length := by
      rw [DataFrame.rowsLen_setCell, DataFrame.rowsLen_addCol]
    obtain ⟨h1, h2, h3⟩ := ih (m + 1) _ hwfs (by rw [hlen]; exact hi)
    refine ⟨by rw [hw]; exact h1, by rw [hw, h2, hlen], ?_⟩
    intro c hc
    rw [hw]
    apply h3
    rw [DataFrame.cols_setCell]
    exact DataFrame.cols_addCol_mem df _ c hc

theorem writeQAListFrom_preserve (k : String) (xs : List String) (i : Nat)
    (c : String) :
    ∀ (m : Nat) (df : DataFrame),
      c ∉ (List.enumFrom m xs).map (fun p => colNameFor k p.1) →
      ∀ i', (writeQAListFrom df i k m xs).getCell i' c = df.getCell i' c := by
  induction xs with
  | nil =>
    intro m df _ i'
    rfl
  | cons x rest ih =>
    intro m df hc i'
    have hw : writeQAListFrom df i k m (x :: rest)
        = writeQAListFrom
            ((df.addCol (colNameFor k m)).setCell i (colNameFor k m)
              (PyVal.vstr x)) i k (m + 1) rest := rfl
    have hmap : (List.enumFrom m (x :: rest)).map (fun p => colNameFor k p.1)
        = colNameFor k m ::
          (List.enumFrom (m + 1) rest).map (fun p => colNameFor k p.1) := rfl
    rw [hmap] at hc
    have hne : c ≠ colNameFor k m := fun he => hc (by rw [he]; simp)
    have hcr : c ∉ (List.enumFrom (m + 1) rest).map
        (fun p => colNameFor k p.1) := fun hr => hc (by simp [hr])
    rw [hw, ih (m + 1) _ hcr i',
      DataFrame.getCell_setCell_ne_col _ i i' (colNameFor k m) c _ hne,
      DataFrame.getCell_addCol_ne df i' (colNameFor k m) c hne]

theorem writeQAListFrom_hit (k : String) (xs : List String) (i : Nat) :
    ∀ (m : Nat) (df : DataFrame), df.wf → i < df.rows.length →
      ((List.enumFrom m xs).map (fun p => colNameFor k p.1)).Nodup →
      ∀ p ∈ List.enumFrom m xs,
        (writeQAListFrom df i k m xs).getCell i (colNameFor k p.1)
          = some (PyVal.vstr p.2) := by
  induction xs with
  | nil =>
    intro m df _ _ _ p hp
    simp [List.enumFrom] at hp
  | cons x rest ih =>
    intro m df hwf hi hnd p hp
    have hw : writeQAListFrom df i k m (x :: rest)
        = writeQAListFrom
            ((df.addCol (colNameFor k m)).setCell i (colNameFor k m)
              (PyVal.vstr x)) i k (m + 1) rest := rfl
    have hmap : (List.enumFrom m (x :: rest)).map (fun p => colNameFor k p.1)
        = colNameFor k m ::
          (List.enumFrom (m + 1) rest).map (fun p => colNameFor k p.1) := rfl
    rw [hmap] at hnd
    have hhead : colNameFor k m ∉ (List.enumFrom (m + 1) rest).map
        (fun p => colNameFor k p.1) := (List.nodup_cons.1 hnd).1
    have htail : ((List.enumFrom (m + 1) rest).map
        (fun p => colNameFor k p.1)).Nodup := (List.nodup_cons.1 hnd).2
    have hwfa : (df.addCol (colNameFor k m)).wf :=
      DataFrame.wf_addCol df _ hwf
    have hmema : colNameFor k m ∈ (df.addCol (colNameFor k m)).cols :=
      DataFrame.mem_cols_addCol_self df _
    have hwfs : ((df.addCol (colNameFor k m)).setCell i (colNameFor k m)
        (PyVal.vstr x)).wf := DataFrame.wf_setCell _ i _ _ hwfa hmema
    have hlen : ((df.addCol (colNameFor k m)).setCell i (colNameFor k m)
        (PyVal.vstr x)).rows.length = df.rows.length := by
      rw [DataFrame.rowsLen_setCell, DataFrame.rowsLen_addCol]
    have hpe : List.enumFrom m (x :: rest)
        = (m, x) :: List.enumFrom (m + 1) rest := rfl
    rw [hpe] at hp
    rcases List.mem_cons.1 hp with he | hr
    · subst he
      rw [hw, writeQAListFrom_preserve k rest i _ (m + 1) _ hhead i]
      simp only
      apply DataFrame.getCell_setCell_self
      rw [DataFrame.rowsLen_addCol]
      exact hi
    · rw [hw]
      exact ih (m + 1) _ hwfs (by rw [hlen]; exact hi) htail p hr

theorem writeStep_eq_of_list (i : Nat) (payload : List (String × PyVal))
    (d : DataFrame) (k : String) (xs : List String)
    (hl : lookupKey payload k = some (PyVal.vlist xs)) :
    writeStep i payload d k = writeQAList d i k xs := by
  unfold writeStep
  rw [hl]

theorem writeStep_eq_of_nonlist (i : Nat) (payload : List (String × PyVal))
    (d : DataFrame) (k : String)
    (hl : isListVal (lookupKey payload k) = false) :
    writeStep i payload d k = d := by
  unfold writeStep
  cases hl' : lookupKey payload k with
  | none => rfl
  | some v =>
    cases v with
    | vstr s => rfl
    | vlist xs =>
      rw [hl'] at hl
      simp [isListVal] at hl

theorem writeStep_basic (i : Nat) (payload : List (String × PyVal))
    (df : DataFrame) (k : String) (hwf : df.wf) (hi : i < df.rows.length) :
    (writeStep i payload df k).wf ∧
    (writeStep i payload df k).rows.length = df.rows.length ∧
    (∀ c ∈ df.cols, c ∈ (writeStep i payload df k).cols) := by
  unfold writeStep
  cases lookupKey payload k with
  | none => exact ⟨hwf, rfl, fun c hc => hc⟩
  | some v =>
    cases v with
    | vstr s => exact ⟨hwf, rfl, fun c hc => hc⟩
    | vlist xs => exact writeQAListFrom_basic k xs i 1 df hwf hi

theorem writeKeysFold_preserve (ks : List String) (i : Nat)
    (payload : List (String × PyVal)) (c : String) :
    (∀ k ∈ ks, c ∉ blockOf payload k) →
    ∀ (df : DataFrame) (i' : Nat),
      (writeKeysFold df i payload ks).getCell i' c = df.getCell i' c := by
  induction ks with
  | nil =>
    intro _ df i'
    rfl
  | cons k0 rest ih =>
    intro hc df i'
    have hw : writeKeysFold df i payload (k0 :: rest)
        = writeKeysFold (writeStep i payload df k0) i payload rest := rfl
    rw [hw, ih (fun k hk => hc k (by simp [hk])) _ i']
    cases hl : lookupKey payload k0 with
    | none =>
      rw [writeStep_eq_of_nonlist i payload df k0 (by rw [hl]; rfl)]
    | some v =>
      cases v with
      | vstr s =>
        rw [writeStep_eq_of_nonlist i payload df k0 (by rw [hl]; rfl)]
      | vlist xs =>
        rw [writeStep_eq_of_list i payload df k0 xs hl]
        have hb : blockOf payload k0
            = (List.enumFrom 1 xs).map (fun p => colNameFor k0 p.1) := by
          unfold blockOf
          rw [hl]
        have hcb : c ∉ (List.enumFrom 1 xs).map (fun p => colNameFor k0 p.1) := by
          rw [← hb]
          exact hc k0 (by simp)
        exact writeQAListFrom_preserve k0 xs i c 1 df hcb i'

theorem writeKeysFold_hit (ks : List String) (i : Nat)
    (payload : List (String × PyVal)) (k : String) (xs : List String)
    (hlk : lookupKey payload k = some (PyVal.vlist xs)) :
    ∀ df : DataFrame, df.wf → i < df.rows.length →
      (ks.flatMap (blockOf payload)).Nodup → k ∈ ks →
      ∀ p ∈ List.enumFrom 1 xs,
        (writeKeysFold df i payload ks).getCell i (colNameFor k p.1)
          = some (PyVal.vstr p.2) := by
  induction ks with
  | nil =>
    intro df _ _ _ hk
    simp at hk
  | cons k0 rest ih =>
    intro df hwf hi hnd hk p hp
    have hw : writeKeysFold df i payload (k0 :: rest)
        = writeKeysFold (writeStep i payload df k0) i payload rest := rfl
    rw [List.flatMap_cons] at hnd
    have hnd1 : (blockOf payload k0).Nodup := (List.nodup_append.1 hnd).1
    have hnd2 : (rest.flatMap (blockOf payload)).Nodup :=
      (List.nodup_append.1 hnd).2.1
    have hdis : (blockOf payload k0).Disjoint
        (rest.flatMap (blockOf payload)) := (List.nodup_append.1 hnd).2.2
    obtain ⟨hwf1, hlen1, -⟩ := writeStep_basic i payload df k0 hwf hi
    by_cases he : k = k0
    · subst he
      have hb : blockOf payload k
          = (List.enumFrom 1 xs).map (fun p => colNameFor k p.1) := by
        unfold blockOf
        rw [hlk]
      have hmemblock : colNameFor k p.1 ∈ blockOf payload k := by
        rw [hb]
        exact List.mem_map_of_mem _ hp
      have hnotrest : ∀ k' ∈ rest, colNameFor k p.1 ∉ blockOf payload k' := by
        intro k' hk' hcmem
        exact hdis hmemblock (List.mem_flatMap.2 ⟨k', hk', hcmem⟩)
      rw [hw, writeKeysFold_preserve rest i payload _ hnotrest _ i,
        writeStep_eq_of_list i payload df k xs hlk]
      have hndb : ((List.enumFrom 1 xs).map
          (fun p => colNameFor k p.1)).Nodup := by
        rw [← hb]
        exact hnd1
      exact writeQAListFrom_hit k xs i 1 df hwf hi hndb p hp
    · have hkr : k ∈ rest := by
        rcases List.mem_cons.1 hk with h | h
        · exact absurd h he
        · exact h
      rw [hw]
      exact ih _ hwf1 (by rw [hlen1]; exact hi) hnd2 hkr p hp

theorem writeKeysFold_id (ks : List String) (i : Nat)
    (payload : List (String × PyVal))
    (h : ∀ k ∈ ks, isListVal (lookupKey payload k) = false) :
    ∀ df : DataFrame, writeKeysFold df i payload ks = df := by
  induction ks with
  | nil =>
    intro df
    rfl
  | cons k0 rest ih =>
    intro df
    have hw : writeKeysFold df i payload (k0 :: rest)
        = writeKeysFold (writeStep i payload df k0) i payload rest := rfl
    rw [hw, writeStep_eq_of_nonlist i payload df k0 (h k0 (by simp))]
    exact ih (fun k hk => h k (by simp [hk])) df

theorem applyTags_basic (df : DataFrame) (i : Nat)
    (payload : List (String × PyVal)) (hwf : df.wf)
    (hi : i < df.rows.length) :
    (applyTags df i payload).wf ∧
    (applyTags df i payload).rows.length = df.rows.length ∧
    (∀ c ∈ df.cols, c ∈ (applyTags df i payload).cols) ∧
    (∀ c ∈ (applyTags df i payload).cols, c ∈ df.cols ∨ c = "tags") := by
  unfold applyTags
  cases hl : lookupKey payload "tags" with
  | none => exact ⟨hwf, rfl, fun c hc => hc, fun c hc => Or.inl hc⟩
  | some v =>
    have hwfa : (df.addCol "tags").wf := DataFrame.wf_addCol df _ hwf
    have hmema : "tags" ∈ (df.addCol "tags").cols :=
      DataFrame.mem_cols_addCol_self df _
    refine ⟨DataFrame.wf_setCell _ i _ _ hwfa hmema, ?_, ?_, ?_⟩
    · rw [DataFrame.rowsLen_setCell, DataFrame.rowsLen_addCol]
    · intro c hc
      rw [DataFrame.cols_setCell]
      exact DataFrame.cols_addCol_mem df _ c hc
    · intro c hc
      rw [DataFrame.cols_setCell] at hc
      unfold DataFrame.addCol at hc
      by_cases hmem : "tags" ∈ df.cols
      · rw [if_pos hmem] at hc
        exact Or.inl hc
      · rw [if_neg hmem] at hc
        rcases List.mem_append.1 hc with h | h
        · exact Or.inl h
        · exact Or.inr (by simpa using h)

theorem applyTags_tags (df : DataFrame) (i : Nat)
    (payload : List (String × PyVal)) (v : PyVal)
    (hi : i < df.rows.length) (hl : lookupKey payload "tags" = some v) :
    (applyTags df i payload).getCell i "tags" = some v := by
  unfold applyTags
  rw [hl]
  apply DataFrame.getCell_setCell_self
  rw [DataFrame.rowsLen_addCol]
  exact hi

theorem applyTags_preserve (df : DataFrame) (i : Nat)
    (payload : List (String × PyVal)) (c : String) (hne : c ≠ "tags") :
    ∀ i', (applyTags df i payload).getCell i' c = df.getCell i' c := by
  unfold applyTags
  cases hl : lookupKey payload "tags" with
  | none =>
    intro i'
    rfl
  | some v =>
    intro i'
    rw [DataFrame.getCell_setCell_ne_col _ i i' "tags" c v hne,
      DataFrame.getCell_addCol_ne df i' "tags" c hne]

theorem qaKeyPref_colNameFor (k : String) (j : Nat)
    (h : qaKeyPref k = true) : qaKeyPref (colNameFor k j) = true := by
  unfold qaKeyPref at *
  unfold colNameFor
  rw [Bool.or_eq_true] at h
  rcases h with h1 | h1
  · have h2 := pyStartsWith_append k "_" "q_" h1
    have h3 := pyStartsWith_append (k ++ "_") (toString j) "q_" h2
    simp [h3]
  · have h2 := pyStartsWith_append k "_" "a_" h1
    have h3 := pyStartsWith_append (k ++ "_") (toString j) "a_" h2
    simp [h3]

theorem qaWriteCols_pref (payload : List (String × PyVal)) (c : String)
    (hc : c ∈ qaWriteCols payload) : qaKeyPref c = true := by
  unfold qaWriteCols at hc
  obtain ⟨k, hk, hck⟩ := List.mem_flatMap.1 hc
  have hkp : qaKeyPref k = true := (List.mem_filter.1 hk).2
  unfold blockOf at hck
  cases hl : lookupKey payload k with
  | none =>
    rw [hl] at hck
    simp at hck
  | some v =>
    cases v with
    | vstr s =>
      rw [hl] at hck
      simp at hck
    | vlist xs =>
      rw [hl] at hck
      obtain ⟨p, -, rfl⟩ := List.mem_map.1 hck
      exact qaKeyPref_colNameFor k p.1 hkp

/-- C5: `update_row_with_qas` returns false and leaves the table
untouched for an out-of-range index; for an in-range index it returns
true after first clearing every existing QA column of the row, writing
the tag when the payload carries one, and writing each list-valued QA
key's items into their positional slot columns (created on demand), and
its persistence sequence stages the complete new table and atomically
replaces the original.  Key distinctness of the payload dict and of the
generated slot-column names are recorded as side conditions. -/
theorem c5_update_row_spec (df : DataFrame) (idx : Int)
    (payload : List (String × PyVal)) (hwf : df.wf)
    (hkeys : (payload.map Prod.fst).Nodup)
    (hnd : (qaWriteCols payload).Nodup) :
    (¬ (0 ≤ idx ∧ idx < (df.rows.length : Int)) →
      update_row_with_qas df idx payload = (false, df)) ∧
    (0 ≤ idx → idx < (df.rows.length : Int) →
      ((update_row_with_qas df idx payload).1 = true ∧
       (∀ v, lookupKey payload "tags" = some v →
         (update_row_with_qas df idx payload).2.getCell idx.toNat "tags"
           = some v) ∧
       (∀ k xs, (k, PyVal.vlist xs) ∈ payload → qaKeyPref k = true →
         ∀ p ∈ List.enumFrom 1 xs,
           (update_row_with_qas df idx payload).2.getCell idx.toNat
             (colNameFor k p.1) = some (PyVal.vstr p.2)) ∧
       (∀ c ∈ df.cols, qaKeyPref c = true → c ∉ qaWriteCols payload →
         (update_row_with_qas df idx payload).2.getCell idx.toNat c
           = some (PyVal.vstr "")) ∧
       (∀ old : List String,
         ((persistOps
             (encodeTable (update_row_with_qas df idx payload).2)).foldl
             FS.apply ⟨old, []⟩).main
           = encodeTable (update_row_with_qas df idx payload).2))) := by
  constructor
  · intro hrange
    have hg : (idx < 0 || (df.rows.length : Int) ≤ idx) = true := by
      simp only [Bool.or_eq_true, decide_eq_true_eq]
      omega
    unfold update_row_with_qas
    rw [hg]
    rfl
  · intro h0 h1
    have hg : (idx < 0 || (df.rows.length : Int) ≤ idx) = false := by
      simp only [Bool.or_eq_false_iff, decide_eq_false_iff_not]
      omega
    have hupd : update_row_with_qas df idx payload
        = (true, writeQAPayload
            (applyTags (clearCells df idx.toNat (df.cols.filter qaKeyPref))
              idx.toNat payload) idx.toNat payload) := by
      unfold update_row_with_qas
      rw [hg]
      rfl
    set i := idx.toNat with hidef
    have hi : i < df.rows.length := by omega
    have hsub : ∀ c ∈ df.cols.filter qaKeyPref, c ∈ df.cols :=
      fun c hc => (List.mem_filter.1 hc).1
    obtain ⟨hcols1, hlen1, hwf1, hhit1, hpres1⟩ :=
      clearCells_spec (df.cols.filter qaKeyPref) i df hwf hsub hi
    set df1 := clearCells df i (df.cols.filter qaKeyPref) with hdf1
    obtain ⟨hwf2, hlen2, hmono2, hupper2⟩ :=
      applyTags_basic df1 i payload hwf1 (by rw [hlen1]; exact hi)
    set df2 := applyTags df1 i payload with hdf2
    have hi2 : i < df2.rows.length := by
      rw [hlen2, hlen1]
      exact hi
    refine ⟨by rw [hupd], ?_, ?_, ?_, ?_⟩
    · intro v hv
      rw [hupd]
      simp only
      have htagcell : df2.getCell i "tags" = some v := by
        rw [hdf2]
        exact applyTags_tags df1 i payload v (by rw [hlen1]; exact hi) hv
      have hnotblock : ∀ k ∈ qaKeys payload, "tags" ∉ blockOf payload k := by
        intro k hk hmem
        have hq : qaKeyPref "tags" = true :=
          qaWriteCols_pref payload "tags" (List.mem_flatMap.2 ⟨k, hk, hmem⟩)
        exact absurd hq (by decide)
      rw [show writeQAPayload df2 i payload
          = writeKeysFold df2 i payload (qaKeys payload) from rfl,
        writeKeysFold_preserve (qaKeys payload) i payload "tags"
          hnotblock df2 i]
      exact htagcell
    · intro k xs hmem hpref p hp
      have hlk : lookupKey payload k = some (PyVal.vlist xs) :=
        lookup_of_mem_nodup payload k _ hmem hkeys
      have hkq : k ∈ qaKeys payload := by
        unfold qaKeys
        exact List.mem_filter.2 ⟨List.mem_map_of_mem Prod.fst hmem, hpref⟩
      rw [hupd]
      simp only
      rw [show writeQAPayload df2 i payload
          = writeKeysFold df2 i payload (qaKeys payload) from rfl]
      exact writeKeysFold_hit (qaKeys payload) i payload k xs hlk df2
        hwf2 hi2 hnd hkq p hp
    · intro c hcc hcpref hcnw
      have hcfil : c ∈ df.cols.filter qaKeyPref :=
        List.mem_filter.2 ⟨hcc, hcpref⟩
      have h1c : df1.getCell i c = some (PyVal.vstr "") := hhit1 c hcfil
      have hcne : c ≠ "tags" := by
        intro he
        rw [he] at hcpref
        exact absurd hcpref (by decide)
      have h2c : df2.getCell i c = some (PyVal.vstr "") := by
        rw [hdf2, applyTags_preserve df1 i payload c hcne i]
        exact h1c
      have hnb : ∀ k ∈ qaKeys payload, c ∉ blockOf payload k := by
        intro k hk hmem
        exact hcnw (List.mem_flatMap.2 ⟨k, hk, hmem⟩)
      rw [hupd]
      simp only
      rw [show writeQAPayload df2 i payload
          = writeKeysFold df2 i payload (qaKeys payload) from rfl,
        writeKeysFold_preserve (qaKeys payload) i payload c hnb df2 i]
      exact h2c
    · intro old
      rw [persist_final]

/-- Witness for C5: a one-row table updated in range with a tag and two
list-valued QA keys. -/
theorem c5_update_row_spec_witness :
    (update_row_with_qas
      (DataFrame.mk ["sanskrit", "english", "tags", "q_en_1", "a_en_1"]
        [[("sanskrit", PyVal.vstr "s"), ("english", PyVal.vstr "e"),
          ("tags", PyVal.vstr ""), ("q_en_1", PyVal.vstr "oldq"),
          ("a_en_1", PyVal.vstr "olda")]])
      0
      [("tags", PyVal.vstr "t"), ("q_en", PyVal.vlist ["Q1", "Q2"]),
       ("a_en", PyVal.vlist ["A1", "A2"])]).1 = true := by
  have h := c5_update_row_spec
    (DataFrame.mk ["sanskrit", "english", "tags", "q_en_1", "a_en_1"]
      [[("sanskrit", PyVal.vstr "s"), ("english", PyVal.vstr "e"),
        ("tags", PyVal.vstr ""), ("q_en_1", PyVal.vstr "oldq"),
        ("a_en_1", PyVal.vstr "olda")]])
    0
    [("tags", PyVal.vstr "t"), ("q_en", PyVal.vlist ["Q1", "Q2"]),
     ("a_en", PyVal.vlist ["A1", "A2"])]
    (by intro r hr; rw [List.mem_singleton.1 hr]; rfl) (by decide) (by decide)
  exact (h.2 (by decide) (by decide)).1

/-- C10: for an in-range update whose payload QA entries all carry
non-list values, the write step silently ignores every one of them: the
call still returns true, every QA column of the row ends empty (the
clearing step ran, nothing was written back), and no new slot column is
created (only `tags` may be added). -/
theorem c10_nonlist_qa_ignored (df : DataFrame) (idx : Int)
    (payload : List (String × PyVal)) (hwf : df.wf)
    (h0 : 0 ≤ idx) (h1 : idx < (df.rows.length : Int))
    (hqa : ∀ k v, (k, v) ∈ payload → qaKeyPref k = true →
      isListVal (some v) = false) :
    (update_row_with_qas df idx payload).1 = true ∧
    (∀ c ∈ df.cols, qaKeyPref c = true →
      (update_row_with_qas df idx payload).2.getCell idx.toNat c
        = some (PyVal.vstr "")) ∧
    (∀ c ∈ (update_row_with_qas df idx payload).2.cols,
      c ∈ df.cols ∨ c = "tags") := by
  have hg : (idx < 0 || (df.rows.length : Int) ≤ idx) = false := by
    simp only [Bool.or_eq_false_iff, decide_eq_false_iff_not]
    omega
  have hupd : update_row_with_qas df idx payload
      = (true, writeQAPayload
          (applyTags (clearCells df idx.toNat (df.cols.filter qaKeyPref))
            idx.toNat payload) idx.toNat payload) := by
    unfold update_row_with_qas
    rw [hg]
    rfl
  set i := idx.toNat with hidef
  have hi : i < df.rows.length := by omega
  have hsub : ∀ c ∈ df.cols.filter qaKeyPref, c ∈ df.cols :=
    fun c hc => (List.mem_filter.1 hc).1
  obtain ⟨hcols1, hlen1, hwf1, hhit1, hpres1⟩ :=
    clearCells_spec (df.cols.filter qaKeyPref) i df hwf hsub hi
  set df1 := clearCells df i (df.cols.filter qaKeyPref) with hdf1
  obtain ⟨hwf2, hlen2, hmono2, hupper2⟩ :=
    applyTags_basic df1 i payload hwf1 (by rw [hlen1]; exact hi)
  set df2 := applyTags df1 i payload with hdf2
  have hid : ∀ k ∈ qaKeys payload,
      isListVal (lookupKey payload k) = false := by
    intro k hk
    have hkm : k ∈ payload.map Prod.fst := (List.mem_filter.1 hk).1
    have hkp : qaKeyPref k = true := (List.mem_filter.1 hk).2
    obtain ⟨v, hv⟩ := lookup_isSome_of_mem_keys payload k hkm
    have hmem := mem_of_lookup payload k v hv
    rw [hv]
    exact hqa k v hmem hkp
  have hwid : writeQAPayload df2 i payload = df2 :=
    writeKeysFold_id (qaKeys payload) i payload hid df2
  refine ⟨by rw [hupd], ?_, ?_⟩
  · intro c hcc hcpref
    have hcfil : c ∈ df.cols.filter qaKeyPref :=
      List.mem_filter.2 ⟨hcc, hcpref⟩
    have h1c : df1.getCell i c = some (PyVal.vstr "") := hhit1 c hcfil
    have hcne : c ≠ "tags" := by
      intro he
      rw [he] at hcpref
      exact absurd hcpref (by decide)
    rw [hupd]
    simp only
    rw [hwid, hdf2, applyTags_preserve df1 i payload c hcne i]
    exact h1c
  · intro c hc
    rw [hupd] at hc
    simp only at hc
    rw [hwid] at hc
    rcases hupper2 c hc with hmem | he
    · rw [hcols1] at hmem
      exact Or.inl hmem
    · exact Or.inr he

/-- Witness for C10: an in-range update whose only QA entry is a flat
string under the key `q_en_1`; the call returns true. -/
theorem c10_nonlist_qa_ignored_witness :
    (update_row_with_qas
      (DataFrame.mk ["sanskrit", "english", "tags", "q_en_1"]
        [[("sanskrit", PyVal.vstr "s"), ("english", PyVal.vstr "e"),
          ("tags", PyVal.vstr ""), ("q_en_1", PyVal.vstr "oldq")]])
      0 [("q_en_1", PyVal.vstr "flat string")]).1 = true :=
  (c10_nonlist_qa_ignored
    (DataFrame.mk ["sanskrit", "english", "tags", "q_en_1"]
      [[("sanskrit", PyVal.vstr "s"), ("english", PyVal.vstr "e"),
        ("tags", PyVal.vstr ""), ("q_en_1", PyVal.vstr "oldq")]])
    0 [("q_en_1", PyVal.vstr "flat string")]
    (by intro r hr; rw [List.mem_singleton.1 hr]; rfl) (by decide) (by decide)
    (by
      intro k v hmem hpref
      rcases List.mem_cons.1 hmem with he | he
      · injection he with e1 e2
        subst e2
        rfl
      · simp at he)).1

/-- C7: every mutating store operation (`update_row_with_qas` and
`ensure_headers`) persists through the stage-then-replace sequence: at
every prefix of that sequence — i.e. under interruption at any point,
including between staging and replace — the original file is either the
full old content or the full new serialized table, never a truncated or
partial mixture; and running the sequence to completion installs exactly
the new serialized table. -/
theorem c7_stage_then_replace (df : DataFrame) (idx : Int)
    (payload : List (String × PyVal)) (nqa : Nat) (old : List String)
    (p q : List FSOp)
    (hp : p <+: persistOps
      (encodeTable (update_row_with_qas df idx payload).2))
    (hq : q <+: persistOps (encodeTable (ensure_headers df nqa))) :
    ((p.foldl FS.apply ⟨old, []⟩).main = old ∨
      (p.foldl FS.apply ⟨old, []⟩).main
        = encodeTable (update_row_with_qas df idx payload).2) ∧
    ((q.foldl FS.apply ⟨old, []⟩).main = old ∨
      (q.foldl FS.apply ⟨old, []⟩).main
        = encodeTable (ensure_headers df nqa)) ∧
    ((persistOps
        (encodeTable (update_row_with_qas df idx payload).2)).foldl
        FS.apply ⟨old, []⟩).main
      = encodeTable (update_row_with_qas df idx payload).2 ∧
    ((persistOps (encodeTable (ensure_headers df nqa))).foldl
        FS.apply ⟨old, []⟩).main
      = encodeTable (ensure_headers df nqa) := by
  refine ⟨persist_prefix_main _ old p hp,
    persist_prefix_main _ old q hq, ?_, ?_⟩
  · rw [persist_final]
  · rw [persist_final]

/-- Witness for C7 at a concrete table, update, header count and
interruption point (the empty prefix: interrupted before any staging). -/
theorem c7_stage_then_replace_witness :
    (([] : List FSOp).foldl FS.apply ⟨["line0"], []⟩).main = ["line0"] ∨
    (([] : List FSOp).foldl FS.apply ⟨["line0"], []⟩).main
      = encodeTable (update_row_with_qas
          (DataFrame.mk ["sanskrit"] [[("sanskrit", PyVal.vstr "s")]])
          0 []).2 :=
  (c7_stage_then_replace
    (DataFrame.mk ["sanskrit"] [[("sanskrit", PyVal.vstr "s")]])
    0 [] 1 ["line0"] [] [] List.nil_prefix List.nil_prefix).1

/-- Outcome oracle for processing one file inside the batch loop: either
the whole per-file loop completes, yielding the accumulated result items,
or an exception escapes the per-row protection (e.g. a store failure)
with a message; in the fault case any row results gathered for that file
are lost, since the local list is only stored into the results map at
file completion. -/
inductive FileOutcome (α : Type) where
  | ok (results : List α)
  | fault (msg : String)
deriving DecidableEq, Repr

/-- The polled batch state: overall status string, error message, and the
results-by-file map. -/
structure BatchStatus (α : Type) where
  status : String
  error_message : String
  results : List (String × List α)
deriving DecidableEq, Repr

/-- The result items a file outcome contributes to the results map. -/
def resultsOf {α : Type} : FileOutcome α → List α
  | FileOutcome.ok rs => rs
  | FileOutcome.fault _ => []

/-- Loop body of `process_files_batch` / `process_files_with_detailed_status`
over the requested files, in order: a completed file stores its results
into the results-by-file map; an escaping exception sets the overall
status to error (keeping everything stored so far) and ends the run; when
all files complete the status becomes completed. -/
def runBatchGo {α : Type} :
    List (String × FileOutcome α) → BatchStatus α → BatchStatus α
  | [], st => { st with status := "completed" }
  | (fid, FileOutcome.ok rs) :: rest, st =>
      runBatchGo rest { st with results := st.results ++ [(fid, rs)] }
  | (_, FileOutcome.fault msg) :: _, st =>
      { st with status := "error", error_message := msg }

/-- A whole batch run, started in the `running` overall state with an
empty results map. -/
def runBatch {α : Type} (files : List (String × FileOutcome α)) :
    BatchStatus α :=
  runBatchGo files ⟨"running", "", []⟩

theorem runBatchGo_status {α : Type}
    (files : List (String × FileOutcome α)) (st : BatchStatus α) :
    (runBatchGo files st).status = "completed" ∨
    (runBatchGo files st).status = "error" := by
  induction files generalizing st with
  | nil => exact Or.inl rfl
  | cons f rest ih =>
    obtain ⟨fid, oc⟩ := f
    cases oc with
    | ok rs => exact ih _
    | fault msg => exact Or.inr rfl

theorem runBatchGo_fault {α : Type}
    (pre : List (String × FileOutcome α)) (fid : String) (msg : String)
    (post : List (String × FileOutcome α)) (st : BatchStatus α)
    (hok : ∀ x ∈ pre, ∃ rs, x.2 = FileOutcome.ok rs) :
    (runBatchGo (pre ++ (fid, FileOutcome.fault msg) :: post) st).status
      = "error" ∧
    (runBatchGo (pre ++ (fid, FileOutcome.fault msg) :: post) st).results
      = st.results ++ pre.map (fun x => (x.1, resultsOf x.2)) := by
  induction pre generalizing st with
  | nil => exact ⟨rfl, by simp [runBatchGo]⟩
  | cons f rest ih =>
    obtain ⟨fid0, oc0⟩ := f
    obtain ⟨rs0, hrs0⟩ := hok (fid0, oc0) (by simp)
    simp only at hrs0
    subst hrs0
    have hcons : runBatchGo
        (((fid0, FileOutcome.ok rs0) :: rest)
          ++ (fid, FileOutcome.fault msg) :: post) st
        = runBatchGo (rest ++ (fid, FileOutcome.fault msg) :: post)
          { st with results := st.results ++ [(fid0, rs0)] } := rfl
    obtain ⟨hs, hr⟩ := ih { st with results := st.results ++ [(fid0, rs0)] }
      (fun x hx => hok x (by simp [hx]))
    rw [hcons]
    refine ⟨hs, ?_⟩
    rw [hr]
    simp [resultsOf]

/-- C8: a batch run's overall status always terminates as `completed` or
`error` (never stuck at `running`), and when the fault strikes at some
file after a span of completed files, the results those completed files
stored in the results-by-file map are still all present after the
`error` termination. -/
theorem c8_batch_terminal {α : Type}
    (files : List (String × FileOutcome α)) :
    ((runBatch files).status = "completed" ∨
      (runBatch files).status = "error") ∧
    (∀ (pre : List (String × FileOutcome α)) (fid msg : String)
        (post : List (String × FileOutcome α)),
      files = pre ++ (fid, FileOutcome.fault msg) :: post →
      (∀ x ∈ pre, ∃ rs, x.2 = FileOutcome.ok rs) →
      (runBatch files).status = "error" ∧
      (runBatch files).results
        = pre.map (fun x => (x.1, resultsOf x.2))) := by
  refine ⟨runBatchGo_status files _, ?_⟩
  intro pre fid msg post hfiles hok
  subst hfiles
  obtain ⟨hs, hr⟩ := runBatchGo_fault pre fid msg post ⟨"running", "", []⟩ hok
  exact ⟨hs, by rw [runBatch, hr]; simp⟩

/-- Witness for C8: one completed file, then a faulting file, then an
unreached file; the run ends in `error` with the first file's results
still in the map. -/
theorem c8_batch_terminal_witness :
    ((runBatch [("f1", FileOutcome.ok [7]), ("f2", FileOutcome.fault "boom"),
        ("f3", FileOutcome.ok [9])]).status = "completed" ∨
      (runBatch [("f1", FileOutcome.ok [7]), ("f2", FileOutcome.fault "boom"),
        ("f3", FileOutcome.ok [9])]).status = "error") ∧
    ((runBatch [("f1", FileOutcome.ok [7]), ("f2", FileOutcome.fault "boom"),
        ("f3", FileOutcome.ok [9])]).status = "error" ∧
      (runBatch [("f1", FileOutcome.ok [7]), ("f2", FileOutcome.fault "boom"),
        ("f3", FileOutcome.ok [9])]).results
        = [("f1", FileOutcome.ok [7])].map
            (fun x => (x.1, resultsOf x.2))) :=
  ⟨(c8_batch_terminal [("f1", FileOutcome.ok [7]),
      ("f2", FileOutcome.fault "boom"), ("f3", FileOutcome.ok [9])]).1,
    (c8_batch_terminal ([("f1", FileOutcome.ok [7]),
        ("f2", FileOutcome.fault "boom"), ("f3", FileOutcome.ok [9])] :
          List (String × FileOutcome Nat))).2
      [("f1", FileOutcome.ok [7])] "f2" "boom" [("f3", FileOutcome.ok [9])]
      rfl
      (by
        intro x hx
        rcases List.mem_singleton.1 hx with rfl
        exact ⟨[7], rfl⟩)⟩

/-- The structural characters of the extraction scanner, spelled by code
point: left/right brace, left/right bracket, double quote, backslash. -/
def lbrace : Char := Char.ofNat 123

def rbrace : Char := Char.ofNat 125

def lbrack : Char := Char.ofNat 91

def rbrack : Char := Char.ofNat 93

def dquote : Char := Char.ofNat 34

def bslash : Char := Char.ofNat 92

/-- The scanning loop of `_extract_first_json`: starting at the first
opening brace with depth 0, outside a string, not escaped, it returns how
many characters are consumed up to and including the closer at which the
nesting depth over braces/brackets first returns to zero.  An escape flag
consumes exactly the next character; an unescaped quote toggles string
mode; brackets count only outside strings. -/
def scanLen : List Char → Int → Bool → Bool → Option Nat
  | [], _, _, _ => none
  | _ :: rest, depth, inStr, true =>
      (scanLen rest depth inStr false).map (· + 1)
  | c :: rest, depth, inStr, false =>
      if c = bslash then (scanLen rest depth inStr true).map (· + 1)
      else if c = dquote then (scanLen rest depth (!inStr) false).map (· + 1)
      else if inStr = false ∧ (c = lbrace ∨ c = lbrack) then
        (scanLen rest (depth + 1) inStr false).map (· + 1)
      else if inStr = false ∧ (c = rbrace ∨ c = rbrack) then
        (if depth - 1 = 0 then some 1
         else (scanLen rest (depth - 1) inStr false).map (· + 1))
      else (scanLen rest depth inStr false).map (· + 1)

/-- Embedding of `_extract_first_json` of `generate_api.py`: drop
everything before the first opening brace (`s.find` of the brace), scan
from there, and return the span up to the first return of depth to zero,
or `none` when there is no opening brace or no completed span. -/
def extract_first_json (s : List Char) : Option (List Char) :=
  if (s.dropWhile (fun c => !(c == lbrace))) = [] then none
  else (scanLen (s.dropWhile (fun c => !(c == lbrace))) 0 false false).map
    (fun k => (s.dropWhile (fun c => !(c == lbrace))).take k)

theorem scanLen_append (xs : List Char) :
    ∀ (d : Int) (s e : Bool) (k : Nat), scanLen xs d s e = some k →
      k ≤ xs.length ∧ ∀ ys, scanLen (xs ++ ys) d s e = some k := by
  induction xs with
  | nil =>
    intro d s e k h
    simp [scanLen] at h
  | cons c rest ih =>
    intro d s e k h
    cases e with
    | true =>
      rw [scanLen] at h
      obtain ⟨k', hk', rfl⟩ := Option.map_eq_some'.1 h
      obtain ⟨hle, happ⟩ := ih d s false k' hk'
      refine ⟨by simp; omega, fun ys => ?_⟩
      rw [List.cons_append, scanLen, happ ys, Option.map_some']
    | false =>
      rw [scanLen] at h
      by_cases h1 : c = bslash
      · rw [if_pos h1] at h
        obtain ⟨k', hk', rfl⟩ := Option.map_eq_some'.1 h
        obtain ⟨hle, happ⟩ := ih d s true k' hk'
        refine ⟨by simp; omega, fun ys => ?_⟩
        rw [List.cons_append, scanLen, if_pos h1, happ ys, Option.map_some']
      · rw [if_neg h1] at h
        by_cases h2 : c = dquote
        · rw [if_pos h2] at h
          obtain ⟨k', hk', rfl⟩ := Option.map_eq_some'.1 h
          obtain ⟨hle, happ⟩ := ih d (!s) false k' hk'
          refine ⟨by simp; omega, fun ys => ?_⟩
          rw [List.cons_append, scanLen, if_neg h1, if_pos h2, happ ys, Option.map_some']
        · rw [if_neg h2] at h
          by_cases h3 : s = false ∧ (c = lbrace ∨ c = lbrack)
          · rw [if_pos h3] at h
            obtain ⟨k', hk', rfl⟩ := Option.map_eq_some'.1 h
            obtain ⟨hle, happ⟩ := ih (d + 1) s false k' hk'
            refine ⟨by simp; omega, fun ys => ?_⟩
            rw [List.cons_append, scanLen, if_neg h1, if_neg h2,
              if_pos h3, happ ys, Option.map_some']
          · rw [if_neg h3] at h
            by_cases h4 : s = false ∧ (c = rbrace ∨ c = rbrack)
            · rw [if_pos h4] at h
              by_cases h5 : d - 1 = 0
              · rw [if_pos h5] at h
                injection h with hk
                subst hk
                refine ⟨by simp, fun ys => ?_⟩
                rw [List.cons_append, scanLen, if_neg h1, if_neg h2,
                  if_neg h3, if_pos h4, if_pos h5]
              · rw [if_neg h5] at h
                obtain ⟨k', hk', rfl⟩ := Option.map_eq_some'.1 h
                obtain ⟨hle, happ⟩ := ih (d - 1) s false k' hk'
                refine ⟨by simp; omega, fun ys => ?_⟩
                rw [List.cons_append, scanLen, if_neg h1, if_neg h2,
                  if_neg h3, if_pos h4, if_neg h5, happ ys, Option.map_some']
            · rw [if_neg h4] at h
              obtain ⟨k', hk', rfl⟩ := Option.map_eq_some'.1 h
              obtain ⟨hle, happ⟩ := ih d s false k' hk'
              refine ⟨by simp; omega, fun ys => ?_⟩
              rw [List.cons_append, scanLen, if_neg h1, if_neg h2,
                if_neg h3, if_neg h4, happ ys, Option.map_some']

theorem dropWhile_append_of_all (pre t : List Char)
    (h : ∀ c ∈ pre, (!(c == lbrace)) = true) :
    (pre ++ t).dropWhile (fun c => !(c == lbrace))
      = t.dropWhile (fun c => !(c == lbrace)) := by
  induction pre with
  | nil => rfl
  | cons c rest ih =>
    rw [List.cons_append, List.dropWhile_cons]
    rw [if_pos (h c (by simp))]
    exact ih (fun c' hc' => h c' (by simp [hc']))

/-- C6: on text made of a brace-free narrative prefix, a balanced
structured object (one whose scan, begun fresh at its leading brace,
first returns to depth zero exactly at its final character — quoted
strings shielding braces and escaped quotes along the way), and an
arbitrary tail, `_extract_first_json` returns exactly the object span. -/
theorem c6_extract_span (pre obj post : List Char)
    (hpre : ∀ c ∈ pre, c ≠ lbrace)
    (hhead : ∃ t, obj = lbrace :: t)
    (hscan : scanLen obj 0 false false = some obj.length) :
    extract_first_json (pre ++ obj ++ post) = some obj := by
  obtain ⟨t0, rfl⟩ := hhead
  have hdrop : (pre ++ (lbrace :: t0) ++ post).dropWhile
      (fun c => !(c == lbrace)) = (lbrace :: t0) ++ post := by
    rw [List.append_assoc,
      dropWhile_append_of_all pre _ (by
        intro c hc
        simp [hpre c hc])]
    rw [List.cons_append, List.dropWhile_cons]
    rw [if_neg (by simp)]
  unfold extract_first_json
  rw [hdrop]
  rw [if_neg (by simp)]
  obtain ⟨-, happ⟩ := scanLen_append (lbrace :: t0) 0 false false
    (lbrace :: t0).length hscan
  rw [happ post]
  rw [Option.map_some']
  rw [List.take_left]

/-- Witness for C6: narrative, then an object whose quoted string holds
an escaped quote and a closing-brace character, then a tail; extraction
returns exactly the object, ignoring the brace inside the string. -/
theorem c6_extract_span_witness :
    extract_first_json
      (['n', 'o', 'i', 's', 'e', ' ']
        ++ [lbrace, dquote, 'a', dquote, ':', dquote, 'x', bslash, dquote,
            rbrace, dquote, rbrace]
        ++ ['t', 'a', 'i', 'l'])
      = some [lbrace, dquote, 'a', dquote, ':', dquote, 'x', bslash, dquote,
              rbrace, dquote, rbrace] :=
  c6_extract_span ['n', 'o', 'i', 's', 'e', ' ']
    [lbrace, dquote, 'a', dquote, ':', dquote, 'x', bslash, dquote,
     rbrace, dquote, rbrace]
    ['t', 'a', 'i', 'l']
    (by decide)
    ⟨[dquote, 'a', dquote, ':', dquote, 'x', bslash, dquote,
      rbrace, dquote, rbrace], rfl⟩
    (by decide)
